import Mathlib

/-!
Shallow embedding of `crawl.py`, an import-following file collector.

Modelling conventions:
* A path is the list of segments of an absolute, normalized path, so
  `os.path.abspath` is the identity on the paths we pass around,
  `os.path.dirname` drops the last segment, `os.path.join` appends
  segment lists, and `os.path.commonpath([fp, root]) == root` is the
  segment-list containment test `isUnderRoot` (a sibling directory
  whose name merely shares a string prefix with `root` is a different
  segment, so it is not under `root`).
* A dotted module name is modelled already split on `.`
  (Python's `module_name.split('.')`), as a list of name segments.
* The filesystem is a finite association list from path to either file
  content (`some c`) or an unreadable regular file (`none`: opening or
  reading it raises an I/O error).  `os.path.isfile` is key membership;
  `open` + `read` of a missing key also fails (FileNotFoundError).
* `ast.parse` together with the `ast.walk` scan that keeps only
  `ast.Import` / `ast.ImportFrom` nodes is the external parser
  capability `FS.parse`: `some nodes` is the list of import nodes in
  walk order, `none` a parse failure (SyntaxError).
* Python's unbounded recursion in `collect_files` is modelled with
  explicit fuel in `collectF`; the wrapper `collect_files` supplies
  fuel `fs.files.length + 1`, and `collectF_stable` below shows that
  any fuel exceeding the number of not-yet-collected files yields the
  same result, which is the termination argument for the walk.
* The Python `collected` dict (insertion-ordered, unique keys) is an
  association list to which new entries are appended at the end.
-/

abbrev FPath := List String

/-- The import declarations `crawl.py` reacts to: `ast.Import` carries a
list of alias names (each a dotted name, pre-split on `.`);
`ast.ImportFrom` carries a leading-dot level and an optional dotted
module name. -/
inductive ImportNode where
  | imp (names : List (List String))
  | impFrom (level : Nat) (module : Option (List String))
deriving DecidableEq

/-- A filesystem snapshot plus the parser capability. -/
structure FS where
  files : List (FPath × Option String)
  parse : String → Option (List ImportNode)

/-- Association-list lookup with decidable path equality (Python dict
lookup / `in`). -/
def alookup {β : Type} (k : FPath) : List (FPath × β) → Option β
  | [] => none
  | (k1, v) :: es => if k = k1 then some v else alookup k es

/-- `os.path.isfile`. -/
def FS.isfile (fs : FS) (p : FPath) : Bool := (alookup p fs.files).isSome

/-- `open(p).read()`: `some content` on success, `none` when the open or
read raises (missing file or I/O error). -/
def FS.read (fs : FS) (p : FPath) : Option String :=
  match alookup p fs.files with
  | some d => d
  | none => none

/-- `os.path.dirname` on a normalized absolute segment path. -/
def dirname (p : FPath) : FPath := p.dropLast

/-- Appending the string `".py"` to a joined path (`candidate + ".py"`
in the source) suffixes the last segment. -/
def addPyExt : FPath → FPath
  | [] => []
  | [s] => [s ++ ".py"]
  | s :: rest => s :: addPyExt rest

/-- The fixed built-in exclusion names of `should_ignore`. -/
def ignoreSet : List String :=
  [".git", ".gitignore", ".gitmodules", "venv", ".venv", "env", "site-packages"]

def commonPrefixLen : FPath → FPath → Nat
  | a :: as, b :: bs => if a = b then commonPrefixLen as bs + 1 else 0
  | _, _ => 0

/-- `os.path.relpath(path, root)` on normalized absolute segment paths:
strip the common leading segments, one `..` per remaining root
segment.  (Only fed to the opaque ignore-spec matcher.) -/
def relpathSegs (path root : FPath) : FPath :=
  List.replicate (root.length - commonPrefixLen path root) ".." ++
    path.drop (commonPrefixLen path root)

/-- The optional compiled `.gitignore` matcher (`pathspec` spec), the
external matching capability `spec.match_file`. -/
abbrev IgnoreSpec := Option (FPath → Bool)

/-- `should_ignore(path, project_root, spec)` from `crawl.py`: any
`__pycache__` segment, any segment in the built-in exclusion set, else
the optional spec matched against the root-relative path. -/
def should_ignore (path : FPath) (project_root : FPath) (spec : IgnoreSpec) : Bool :=
  if "__pycache__" ∈ path then true
  else if path.any (fun part => decide (part ∈ ignoreSet)) then true
  else
    match spec with
    | some matcher => matcher (relpathSegs path project_root)
    | none => false

/-- `resolve_module(module_name, base_dir)` from `crawl.py`: try the
single-file shape `base_dir/seg1/../segN.py`, then the package shape
`base_dir/seg1/../segN/__init__.py`; first existing regular file wins,
else `none`. -/
def resolve_module (fs : FS) (module_name : List String) (base_dir : FPath) : Option FPath :=
  let file_path := addPyExt (base_dir ++ module_name)
  if fs.isfile file_path then some file_path
  else
    let package_path := base_dir ++ module_name ++ ["__init__.py"]
    if fs.isfile package_path then some package_path
    else none

/-- The `for _ in range(k): current_dir = os.path.dirname(current_dir)`
loop of `resolve_import`. -/
def ascend : Nat → FPath → FPath
  | 0, d => d
  | n + 1, d => ascend n (dirname d)

/-- `resolve_import(node, current_file, project_root)` from `crawl.py`. -/
def resolve_import (fs : FS) (node : ImportNode) (current_file : FPath)
    (project_root : FPath) : List FPath :=
  match node with
  | .imp names =>
      names.foldl (fun results module_name =>
        let current_dir := dirname current_file
        let resolved :=
          match resolve_module fs module_name current_dir with
          | some r => some r
          | none => resolve_module fs module_name project_root
        match resolved with
        | some r => results ++ [r]
        | none => results) []
  | .impFrom 0 module =>
      match module with
      | some m =>
          let current_dir := dirname current_file
          let resolved :=
            match resolve_module fs m current_dir with
            | some r => some r
            | none => resolve_module fs m project_root
          match resolved with
          | some r => [r]
          | none => []
      | none => []
  | .impFrom (level + 1) module =>
      let current_dir := ascend level (dirname current_file)
      let candidate_dir :=
        match module with
        | some m => current_dir ++ m
        | none => current_dir
      let file_candidate := addPyExt candidate_dir
      if fs.isfile file_candidate then [file_candidate]
      else
        let init_candidate := candidate_dir ++ ["__init__.py"]
        if fs.isfile init_candidate then [init_candidate]
        else []

/-- `os.path.commonpath([fp, project_root]) == project_root` on
normalized absolute paths: `project_root`'s segments lead `fp`. -/
def isUnderRoot (project_root fp : FPath) : Bool :=
  match project_root, fp with
  | [], _ => true
  | _ :: _, [] => false
  | r :: rs, s :: ss => if r = s then isUnderRoot rs ss else false

/-- Fueled form of `collect_files(file_path, project_root, spec,
collected)`: membership check, ignore check, read, record, parse, then
recursion into each resolved in-root candidate, exactly in source
order.  The fuel only bounds Python's unbounded recursion; see
`collectF_stable`. -/
def collectF (fs : FS) (project_root : FPath) (spec : IgnoreSpec) :
    Nat → FPath → List (FPath × String) → List (FPath × String)
  | 0, _, collected => collected
  | fuel + 1, file_path, collected =>
      let abs_path := file_path
      if (alookup abs_path collected).isSome then collected
      else if should_ignore abs_path project_root spec then collected
      else
        match fs.read abs_path with
        | none => collected
        | some content =>
            let collected1 := collected ++ [(abs_path, content)]
            match fs.parse content with
            | none => collected1
            | some nodes =>
                nodes.foldl (fun acc node =>
                  (resolve_import fs node abs_path project_root).foldl
                    (fun acc2 fp =>
                      if isUnderRoot project_root fp then
                        collectF fs project_root spec fuel fp acc2
                      else acc2) acc) collected1

/-- `collect_files(file_path, project_root, spec)` with the default
empty accumulator; the supplied fuel always suffices
(`collectF_stable`). -/
def collect_files (fs : FS) (file_path : FPath) (project_root : FPath)
    (spec : IgnoreSpec) : List (FPath × String) :=
  collectF fs project_root spec (fs.files.length + 1) file_path []

/-- `d` extends `c`: every entry of `c` is preserved unchanged and in
place, and new entries are only appended at the end. -/
def ExtendsAcc (c d : List (FPath × String)) : Prop := ∃ t, d = c ++ t

/-- Number of filesystem entries whose path is not yet a key of the
accumulator; the termination measure of the traversal. -/
def ucount (fs : FS) (c : List (FPath × String)) : Nat :=
  (fs.files.filter (fun e => (alookup e.1 c).isNone)).length

/-! Concrete filesystem snapshots used to evaluate the theorems. -/

/-- Two-file import cycle: `/r/a.py` imports `b`, `/r/b.py` imports `a`. -/
def exCycleFS : FS :=
  ⟨[(["r", "a.py"], some "import b"), (["r", "b.py"], some "import a")],
   fun s =>
     if s = "import b" then some [.imp [["b"]]]
     else if s = "import a" then some [.imp [["a"]]]
     else some []⟩

/-- One importless file `/q/e.py` that lies outside the root `/r`. -/
def exOutFS : FS := ⟨[(["q", "e.py"], some "x")], fun _ => some []⟩

/-- One importless file `/r/e.py` inside the root `/r`. -/
def exInFS : FS := ⟨[(["r", "e.py"], some "x")], fun _ => some []⟩

/-- Both a directory-relative candidate `/r/sub/m.py` and a
root-relative candidate `/r/m.py` exist for the module name `m`. -/
def exPrecFS : FS :=
  ⟨[(["r", "sub", "m.py"], some ""), (["r", "m.py"], some "")], fun _ => some []⟩

/-- A level-1 relative import target `/r/pkg/b.py`. -/
def exRelFS : FS := ⟨[(["r", "pkg", "b.py"], some "")], fun _ => some []⟩

/-- Both the sibling file `/r/pkg.py` and the package entry
`/r/pkg/__init__.py` exist. -/
def exShadowFS : FS :=
  ⟨[(["r", "pkg.py"], some ""), (["r", "pkg", "__init__.py"], some "")],
   fun _ => some []⟩

/-- Only the package shape `/r/m/__init__.py` exists for module `m`. -/
def exPkgFS : FS := ⟨[(["r", "m", "__init__.py"], some "")], fun _ => some []⟩

/-- A readable file whose content does not parse. -/
def exBadParseFS : FS := ⟨[(["r", "bad.py"], some "def (")], fun _ => none⟩

/-- A file that exists but cannot be read (I/O error). -/
def exReadErrFS : FS := ⟨[(["r", "locked.py"], none)], fun _ => some []⟩

/-- Same snapshot as `exFSb`, built once. -/
def exFSa : FS := ⟨[(["r", "a.py"], some "x")], fun _ => some []⟩

/-- Same snapshot as `exFSa`, built a second time. -/
def exFSb : FS := ⟨[(["r", "a.py"], some "x")] ++ [], fun _ => some []⟩

/-! ### Association-list and list helper lemmas -/

theorem alookup_cons {β : Type} (k k1 : FPath) (v : β) (es : List (FPath × β)) :
    alookup k ((k1, v) :: es) = if k = k1 then some v else alookup k es := rfl

theorem alookup_append_left {β : Type} (k : FPath) (c t : List (FPath × β)) (v : β)
    (h : alookup k c = some v) : alookup k (c ++ t) = some v := by
  induction c with
  | nil => simp [alookup] at h
  | cons e c ih =>
    obtain ⟨k1, w⟩ := e
    rw [List.cons_append, alookup_cons]
    rw [alookup_cons] at h
    by_cases hk : k = k1
    · simpa [hk] using h
    · rw [if_neg hk] at h ⊢
      exact ih h

theorem alookup_append_right {β : Type} (k : FPath) (c t : List (FPath × β))
    (h : alookup k c = none) : alookup k (c ++ t) = alookup k t := by
  induction c with
  | nil => simp
  | cons e c ih =>
    obtain ⟨k1, w⟩ := e
    rw [alookup_cons] at h
    by_cases hk : k = k1
    · simp [hk] at h
    · rw [List.cons_append, alookup_cons, if_neg hk]
      exact ih (by simpa [if_neg hk] using h)

theorem mem_of_alookup {β : Type} (k : FPath) (v : β) :
    ∀ l : List (FPath × β), alookup k l = some v → (k, v) ∈ l := by
  intro l
  induction l with
  | nil => intro h; simp [alookup] at h
  | cons e l ih =>
    intro h
    obtain ⟨k1, w⟩ := e
    rw [alookup_cons] at h
    by_cases hk : k = k1
    · rw [if_pos hk] at h
      obtain rfl : w = v := by simpa using h
      subst hk
      exact List.mem_cons_self _ _
    · rw [if_neg hk] at h
      exact List.mem_cons_of_mem _ (ih h)

theorem alookup_none_iff_not_mem_keys {β : Type} (k : FPath) :
    ∀ l : List (FPath × β), alookup k l = none ↔ k ∉ l.map Prod.fst := by
  intro l
  induction l with
  | nil => simp [alookup]
  | cons e l ih =>
    obtain ⟨k1, w⟩ := e
    rw [alookup_cons]
    by_cases hk : k = k1
    · subst hk
      rw [if_pos rfl, List.map_cons]
      constructor
      · intro h; exact Option.noConfusion h
      · intro h; exact absurd (List.mem_cons_self k (l.map Prod.fst)) h
    · rw [if_neg hk, List.map_cons, ih]
      constructor
      · intro h hmem
        rcases List.mem_cons.mp hmem with h1 | h1
        · exact hk h1
        · exact h h1
      · intro h hmem
        exact h (List.mem_cons_of_mem _ hmem)

theorem extendsAcc_refl (c : List (FPath × String)) : ExtendsAcc c c :=
  ⟨[], by simp⟩

theorem extendsAcc_trans {a b c : List (FPath × String)}
    (h1 : ExtendsAcc a b) (h2 : ExtendsAcc b c) : ExtendsAcc a c := by
  obtain ⟨t1, rfl⟩ := h1
  obtain ⟨t2, rfl⟩ := h2
  exact ⟨t1 ++ t2, by simp⟩

theorem extendsAcc_append (c t : List (FPath × String)) : ExtendsAcc c (c ++ t) :=
  ⟨t, rfl⟩

theorem alookup_isSome_of_extendsAcc {c d : List (FPath × String)} {k : FPath}
    (h : ExtendsAcc c d) (hk : (alookup k c).isSome = true) :
    (alookup k d).isSome = true := by
  obtain ⟨t, rfl⟩ := h
  cases hv : alookup k c with
  | none => rw [hv] at hk; simp at hk
  | some v => rw [alookup_append_left k c t v hv]; rfl

theorem length_filter_mono {α : Type} (p q : α → Bool)
    (h : ∀ a, p a = true → q a = true) :
    ∀ l : List α, (l.filter p).length ≤ (l.filter q).length := by
  intro l
  induction l with
  | nil => simp
  | cons a l ih =>
    by_cases hp : p a = true
    · simp only [List.filter_cons, hp, h a hp, if_pos, List.length_cons]
      exact Nat.succ_le_succ ih
    · by_cases hq : q a = true
      · simp only [List.filter_cons, hp, hq, if_pos, if_neg, Bool.false_eq_true,
          List.length_cons]
        exact Nat.le_succ_of_le ih
      · simp only [List.filter_cons, hp, hq, if_neg, Bool.false_eq_true]
        exact ih

theorem length_filter_lt {α : Type} (p q : α → Bool)
    (h : ∀ a, p a = true → q a = true) (a : α) :
    ∀ l : List α, a ∈ l → q a = true → p a = false →
      (l.filter p).length < (l.filter q).length := by
  intro l
  induction l with
  | nil => intro ha; simp at ha
  | cons b l ih =>
    intro ha hqa hpa
    rcases List.mem_cons.mp ha with rfl | hmem
    · have hpa' : ¬ p a = true := by simp [hpa]
      simp only [List.filter_cons, hpa', hqa, if_pos, if_neg, Bool.false_eq_true,
        List.length_cons]
      exact Nat.lt_succ_of_le (length_filter_mono p q h l)
    · by_cases hpb : p b = true
      · have hqb := h b hpb
        simp only [List.filter_cons, hpb, hqb, if_pos, List.length_cons]
        exact Nat.succ_lt_succ (ih hmem hqa hpa)
      · by_cases hqb : q b = true
        · simp only [List.filter_cons, hpb, hqb, if_pos, if_neg, Bool.false_eq_true,
            List.length_cons]
          exact Nat.lt_succ_of_lt (ih hmem hqa hpa)
        · simp only [List.filter_cons, hpb, hqb, if_neg, Bool.false_eq_true]
          exact ih hmem hqa hpa

theorem foldl_pres {α β : Type} (P : β → Prop) (f : β → α → β)
    (h : ∀ acc a, P acc → P (f acc a)) :
    ∀ (l : List α) (c : β), P c → P (l.foldl f c) := by
  intro l
  induction l with
  | nil => intro c hc; exact hc
  | cons a l ih => intro c hc; exact ih (f c a) (h c a hc)

theorem foldl_mem {α β : Type} (f : List β → α → List β) (R : β → Prop)
    (h : ∀ acc a e, e ∈ f acc a → e ∈ acc ∨ R e) :
    ∀ (l : List α) (c : List β) (e : β), e ∈ l.foldl f c → e ∈ c ∨ R e := by
  intro l
  induction l with
  | nil => intro c e he; exact Or.inl he
  | cons a l ih =>
    intro c e he
    rw [List.foldl_cons] at he
    rcases ih (f c a) e he with h1 | h1
    · exact h c a e h1
    · exact Or.inr h1

theorem foldl_congr_inv {α β : Type} (P : β → Prop) (f g : β → α → β) :
    ∀ (l : List α) (c : β), P c → (∀ acc a, P acc → P (f acc a)) →
      (∀ acc a, P acc → f acc a = g acc a) → l.foldl f c = l.foldl g c := by
  intro l
  induction l with
  | nil => intro c _ _ _; rfl
  | cons a l ih =>
    intro c hc hpres hcong
    rw [List.foldl_cons, List.foldl_cons, ← hcong c a hc]
    exact ih (f c a) (hpres c a hc) hpres hcong

/-! ### Step equations for the traversal -/

theorem collectF_zero (fs : FS) (root : FPath) (spec : IgnoreSpec) (p : FPath)
    (c : List (FPath × String)) : collectF fs root spec 0 p c = c := rfl

theorem collectF_found (fs : FS) (root : FPath) (spec : IgnoreSpec) (fuel : Nat)
    (p : FPath) (c : List (FPath × String)) (h : (alookup p c).isSome = true) :
    collectF fs root spec (fuel + 1) p c = c := by
  simp [collectF, h]

theorem collectF_ignored (fs : FS) (root : FPath) (spec : IgnoreSpec) (fuel : Nat)
    (p : FPath) (c : List (FPath × String)) (h1 : (alookup p c).isSome = false)
    (h2 : should_ignore p root spec = true) :
    collectF fs root spec (fuel + 1) p c = c := by
  simp [collectF, h1, h2]

theorem collectF_readfail (fs : FS) (root : FPath) (spec : IgnoreSpec) (fuel : Nat)
    (p : FPath) (c : List (FPath × String)) (h1 : (alookup p c).isSome = false)
    (h2 : should_ignore p root spec = false) (h3 : fs.read p = none) :
    collectF fs root spec (fuel + 1) p c = c := by
  simp [collectF, h1, h2, h3]

theorem collectF_parsefail (fs : FS) (root : FPath) (spec : IgnoreSpec) (fuel : Nat)
    (p : FPath) (c : List (FPath × String)) (content : String)
    (h1 : (alookup p c).isSome = false) (h2 : should_ignore p root spec = false)
    (h3 : fs.read p = some content) (h4 : fs.parse content = none) :
    collectF fs root spec (fuel + 1) p c = c ++ [(p, content)] := by
  simp [collectF, h1, h2, h3, h4]

theorem collectF_visit (fs : FS) (root : FPath) (spec : IgnoreSpec) (fuel : Nat)
    (p : FPath) (c : List (FPath × String)) (content : String)
    (nodes : List ImportNode)
    (h1 : (alookup p c).isSome = false) (h2 : should_ignore p root spec = false)
    (h3 : fs.read p = some content) (h4 : fs.parse content = some nodes) :
    collectF fs root spec (fuel + 1) p c =
      nodes.foldl (fun acc node =>
        (resolve_import fs node p root).foldl
          (fun acc2 fp =>
            if isUnderRoot root fp then collectF fs root spec fuel fp acc2
            else acc2) acc) (c ++ [(p, content)]) := by
  simp [collectF, h1, h2, h3, h4]

/-! ### Traversal invariants -/

theorem alookup_eq_none_of_isSome_false {β : Type} {k : FPath} {l : List (FPath × β)}
    (h : (alookup k l).isSome = false) : alookup k l = none := by
  cases hv : alookup k l with
  | none => rfl
  | some v => rw [hv] at h; exact absurd h (by simp)

/-- Everything already collected stays, unchanged and in order; the
traversal only appends. -/
theorem collectF_extendsAcc (fs : FS) (root : FPath) (spec : IgnoreSpec) :
    ∀ (fuel : Nat) (p : FPath) (c : List (FPath × String)),
      ExtendsAcc c (collectF fs root spec fuel p c) := by
  intro fuel
  induction fuel with
  | zero => intro p c; rw [collectF_zero]; exact extendsAcc_refl c
  | succ fuel ih =>
    intro p c
    cases h1 : (alookup p c).isSome with
    | true => rw [collectF_found fs root spec fuel p c h1]; exact extendsAcc_refl c
    | false =>
      cases h2 : should_ignore p root spec with
      | true =>
        rw [collectF_ignored fs root spec fuel p c h1 h2]; exact extendsAcc_refl c
      | false =>
        cases h3 : fs.read p with
        | none =>
          rw [collectF_readfail fs root spec fuel p c h1 h2 h3]
          exact extendsAcc_refl c
        | some content =>
          cases h4 : fs.parse content with
          | none =>
            rw [collectF_parsefail fs root spec fuel p c content h1 h2 h3 h4]
            exact extendsAcc_append c _
          | some nodes =>
            rw [collectF_visit fs root spec fuel p c content nodes h1 h2 h3 h4]
            refine extendsAcc_trans (extendsAcc_append c [(p, content)]) ?_
            refine foldl_pres (fun acc => ExtendsAcc (c ++ [(p, content)]) acc) _
              ?_ nodes _ (extendsAcc_refl _)
            intro acc node hacc
            refine foldl_pres (fun acc2 => ExtendsAcc (c ++ [(p, content)]) acc2) _
              ?_ _ acc hacc
            intro acc2 fp hacc2
            by_cases h5 : isUnderRoot root fp = true
            · rw [if_pos h5]
              exact extendsAcc_trans hacc2 (ih fp acc2)
            · rw [if_neg h5]
              exact hacc2

/-- Every entry of the result was either already in the accumulator or
was recorded by the walk; a recorded entry is never ignored, carries
exactly the content read from disk, and its path is the visited start
path or lies under the root. -/
theorem collectF_mem (fs : FS) (root : FPath) (spec : IgnoreSpec) :
    ∀ (fuel : Nat) (p : FPath) (c : List (FPath × String)) (pr : FPath × String),
      pr ∈ collectF fs root spec fuel p c →
      pr ∈ c ∨ (should_ignore pr.1 root spec = false ∧ fs.read pr.1 = some pr.2 ∧
        (pr.1 = p ∨ isUnderRoot root pr.1 = true)) := by
  intro fuel
  induction fuel with
  | zero => intro p c pr h; rw [collectF_zero] at h; exact Or.inl h
  | succ fuel ih =>
    intro p c pr h
    cases h1 : (alookup p c).isSome with
    | true => rw [collectF_found fs root spec fuel p c h1] at h; exact Or.inl h
    | false =>
      cases h2 : should_ignore p root spec with
      | true =>
        rw [collectF_ignored fs root spec fuel p c h1 h2] at h; exact Or.inl h
      | false =>
        cases h3 : fs.read p with
        | none =>
          rw [collectF_readfail fs root spec fuel p c h1 h2 h3] at h; exact Or.inl h
        | some content =>
          cases h4 : fs.parse content with
          | none =>
            rw [collectF_parsefail fs root spec fuel p c content h1 h2 h3 h4] at h
            rcases List.mem_append.mp h with h5 | h5
            · exact Or.inl h5
            · obtain rfl : pr = (p, content) := by simpa using h5
              exact Or.inr ⟨h2, h3, Or.inl rfl⟩
          | some nodes =>
            rw [collectF_visit fs root spec fuel p c content nodes h1 h2 h3 h4] at h
            have key := foldl_mem _
              (fun e : FPath × String => should_ignore e.1 root spec = false ∧
                fs.read e.1 = some e.2 ∧ isUnderRoot root e.1 = true)
              ?_ nodes (c ++ [(p, content)]) pr h
            · rcases key with h5 | h5
              · rcases List.mem_append.mp h5 with h6 | h6
                · exact Or.inl h6
                · obtain rfl : pr = (p, content) := by simpa using h6
                  exact Or.inr ⟨h2, h3, Or.inl rfl⟩
              · exact Or.inr ⟨h5.1, h5.2.1, Or.inr h5.2.2⟩
            · intro acc node e he
              refine foldl_mem _
                (fun e : FPath × String => should_ignore e.1 root spec = false ∧
                  fs.read e.1 = some e.2 ∧ isUnderRoot root e.1 = true)
                ?_ _ acc e he
              intro acc2 fp e2 he2
              by_cases h5 : isUnderRoot root fp = true
              · rw [if_pos h5] at he2
                rcases ih fp acc2 e2 he2 with h6 | h6
                · exact Or.inl h6
                · rcases h6.2.2 with h7 | h7
                  · exact Or.inr ⟨h6.1, h6.2.1, h7 ▸ h5⟩
                  · exact Or.inr ⟨h6.1, h6.2.1, h7⟩
              · rw [if_neg h5] at he2
                exact Or.inl he2

/-- The traversal never records a path twice. -/
theorem collectF_nodup (fs : FS) (root : FPath) (spec : IgnoreSpec) :
    ∀ (fuel : Nat) (p : FPath) (c : List (FPath × String)),
      (c.map Prod.fst).Nodup → ((collectF fs root spec fuel p c).map Prod.fst).Nodup := by
  intro fuel
  induction fuel with
  | zero => intro p c hc; rw [collectF_zero]; exact hc
  | succ fuel ih =>
    intro p c hc
    cases h1 : (alookup p c).isSome with
    | true => rw [collectF_found fs root spec fuel p c h1]; exact hc
    | false =>
      have hnotmem : p ∉ c.map Prod.fst :=
        (alookup_none_iff_not_mem_keys p c).mp (alookup_eq_none_of_isSome_false h1)
      cases h2 : should_ignore p root spec with
      | true => rw [collectF_ignored fs root spec fuel p c h1 h2]; exact hc
      | false =>
        cases h3 : fs.read p with
        | none => rw [collectF_readfail fs root spec fuel p c h1 h2 h3]; exact hc
        | some content =>
          have hc1 : ((c ++ [(p, content)]).map Prod.fst).Nodup := by
            rw [List.map_append]
            refine List.Nodup.append hc (by simp) ?_
            intro a ha hb
            obtain rfl : a = p := by simpa using hb
            exact hnotmem ha
          cases h4 : fs.parse content with
          | none =>
            rw [collectF_parsefail fs root spec fuel p c content h1 h2 h3 h4]
            exact hc1
          | some nodes =>
            rw [collectF_visit fs root spec fuel p c content nodes h1 h2 h3 h4]
            refine foldl_pres
              (fun acc : List (FPath × String) => (acc.map Prod.fst).Nodup) _
              ?_ nodes _ hc1
            intro acc node hacc
            refine foldl_pres
              (fun acc2 : List (FPath × String) => (acc2.map Prod.fst).Nodup) _
              ?_ _ acc hacc
            intro acc2 fp hacc2
            by_cases h5 : isUnderRoot root fp = true
            · rw [if_pos h5]
              exact ih fp acc2 hacc2
            · rw [if_neg h5]
              exact hacc2

theorem ucount_le_of_extendsAcc (fs : FS) {c d : List (FPath × String)}
    (h : ExtendsAcc c d) : ucount fs d ≤ ucount fs c := by
  refine length_filter_mono _ _ ?_ fs.files
  intro e he
  rw [Option.isNone_iff_eq_none] at he ⊢
  cases hc : alookup e.1 c with
  | none => rfl
  | some v =>
    have hsome : (alookup e.1 d).isSome = true :=
      alookup_isSome_of_extendsAcc h (by rw [hc]; rfl)
    rw [he] at hsome
    exact absurd hsome (by simp)

theorem ucount_append_lt (fs : FS) (c : List (FPath × String)) (p : FPath)
    (content : String) (d : Option String) (hfile : alookup p fs.files = some d)
    (hmem : alookup p c = none) :
    ucount fs (c ++ [(p, content)]) < ucount fs c := by
  refine length_filter_lt _ _ ?_ (p, d) fs.files (mem_of_alookup p d fs.files hfile)
    ?_ ?_
  · intro e he
    rw [Option.isNone_iff_eq_none] at he ⊢
    cases hc : alookup e.1 c with
    | none => rfl
    | some v =>
      have := alookup_append_left e.1 c [(p, content)] v hc
      rw [he] at this
      exact Option.noConfusion this
  · rw [Option.isNone_iff_eq_none]
    exact hmem
  · rw [alookup_append_right p c _ hmem, alookup_cons, if_pos rfl]
    rfl

theorem read_some_alookup (fs : FS) (p : FPath) (content : String)
    (h : fs.read p = some content) : alookup p fs.files = some (some content) := by
  unfold FS.read at h
  cases hv : alookup p fs.files with
  | none => rw [hv] at h; exact Option.noConfusion h
  | some d =>
    rw [hv] at h
    have hd : d = some content := h
    rw [hd]

/-- Fuel independence: once the fuel exceeds the number of files not yet
collected, the result no longer depends on it.  Because a visited file
is recorded before its imports are recursed into and an already-present
path is never re-entered, each nested call strictly shrinks the set of
collectable files; this is the termination argument of the recursion,
cycles included. -/
theorem collectF_stable (fs : FS) (root : FPath) (spec : IgnoreSpec) :
    ∀ (n m : Nat) (p : FPath) (c : List (FPath × String)),
      ucount fs c < n → ucount fs c < m →
      collectF fs root spec n p c = collectF fs root spec m p c := by
  intro n
  induction n with
  | zero => intro m p c hn; exact absurd hn (Nat.not_lt_zero _)
  | succ n ih =>
    intro m p c hn hm
    cases m with
    | zero => exact absurd hm (Nat.not_lt_zero _)
    | succ m =>
      cases h1 : (alookup p c).isSome with
      | true =>
        rw [collectF_found fs root spec n p c h1, collectF_found fs root spec m p c h1]
      | false =>
        cases h2 : should_ignore p root spec with
        | true =>
          rw [collectF_ignored fs root spec n p c h1 h2,
            collectF_ignored fs root spec m p c h1 h2]
        | false =>
          cases h3 : fs.read p with
          | none =>
            rw [collectF_readfail fs root spec n p c h1 h2 h3,
              collectF_readfail fs root spec m p c h1 h2 h3]
          | some content =>
            cases h4 : fs.parse content with
            | none =>
              rw [collectF_parsefail fs root spec n p c content h1 h2 h3 h4,
                collectF_parsefail fs root spec m p c content h1 h2 h3 h4]
            | some nodes =>
              rw [collectF_visit fs root spec n p c content nodes h1 h2 h3 h4,
                collectF_visit fs root spec m p c content nodes h1 h2 h3 h4]
              have hlt : ucount fs (c ++ [(p, content)]) < ucount fs c :=
                ucount_append_lt fs c p content _ (read_some_alookup fs p content h3)
                  (alookup_eq_none_of_isSome_false h1)
              have hpres : ∀ (fuel : Nat) (acc : List (FPath × String))
                  (node : ImportNode), ExtendsAcc (c ++ [(p, content)]) acc →
                  ExtendsAcc (c ++ [(p, content)])
                    ((resolve_import fs node p root).foldl
                      (fun acc2 fp =>
                        if isUnderRoot root fp then collectF fs root spec fuel fp acc2
                        else acc2) acc) := by
                intro fuel acc node hacc
                refine foldl_pres (fun acc2 => ExtendsAcc (c ++ [(p, content)]) acc2) _
                  ?_ _ acc hacc
                intro acc2 fp hacc2
                by_cases h5 : isUnderRoot root fp = true
                · rw [if_pos h5]
                  exact extendsAcc_trans hacc2 (collectF_extendsAcc fs root spec fuel fp acc2)
                · rw [if_neg h5]
                  exact hacc2
              refine foldl_congr_inv (fun acc => ExtendsAcc (c ++ [(p, content)]) acc)
                _ _ nodes _ (extendsAcc_refl _) (fun acc node hacc => hpres n acc node hacc)
                ?_
              intro acc node hacc
              refine foldl_congr_inv (fun acc2 => ExtendsAcc (c ++ [(p, content)]) acc2)
                _ _ _ acc hacc ?_ ?_
              · intro acc2 fp hacc2
                by_cases h5 : isUnderRoot root fp = true
                · rw [if_pos h5]
                  exact extendsAcc_trans hacc2 (collectF_extendsAcc fs root spec n fp acc2)
                · rw [if_neg h5]
                  exact hacc2
              · intro acc2 fp hacc2
                by_cases h5 : isUnderRoot root fp = true
                · rw [if_pos h5, if_pos h5]
                  have hu : ucount fs acc2 < ucount fs c :=
                    Nat.lt_of_le_of_lt (ucount_le_of_extendsAcc fs hacc2) hlt
                  exact ih m fp acc2 (Nat.lt_of_lt_of_le hu (Nat.lt_succ_iff.mp hn))
                    (Nat.lt_of_lt_of_le hu (Nat.lt_succ_iff.mp hm))
                · rw [if_neg h5, if_neg h5]

/-! ### Resolver lemmas and claims -/

theorem addPyExt_concat (s : String) :
    ∀ xs : List String, addPyExt (xs ++ [s]) = xs ++ [s ++ ".py"] := by
  intro xs
  induction xs with
  | nil => rfl
  | cons x xs ih =>
    cases xs with
    | nil => rfl
    | cons y ys =>
      show x :: addPyExt ((y :: ys) ++ [s]) = x :: ((y :: ys) ++ [s ++ ".py"])
      rw [ih]

theorem dirname_concat (xs : List String) (s : String) : dirname (xs ++ [s]) = xs := by
  simp [dirname]

theorem resolve_import_rel_some (fs : FS) (file root : FPath) (L : Nat)
    (mm : List String) :
    resolve_import fs (.impFrom (L + 1) (some mm)) file root =
      if fs.isfile (addPyExt (ascend L (dirname file) ++ mm))
      then [addPyExt (ascend L (dirname file) ++ mm)]
      else if fs.isfile ((ascend L (dirname file) ++ mm) ++ ["__init__.py"])
      then [(ascend L (dirname file) ++ mm) ++ ["__init__.py"]]
      else [] := rfl

theorem resolve_import_rel_none (fs : FS) (file root : FPath) (L : Nat) :
    resolve_import fs (.impFrom (L + 1) none) file root =
      if fs.isfile (addPyExt (ascend L (dirname file)))
      then [addPyExt (ascend L (dirname file))]
      else if fs.isfile (ascend L (dirname file) ++ ["__init__.py"])
      then [ascend L (dirname file) ++ ["__init__.py"]]
      else [] := rfl

theorem ascend_zero (x : FPath) : ascend 0 x = x := rfl

theorem ascend_one (x : FPath) : ascend 1 x = dirname x := rfl

theorem resolve_module_eq (fs : FS) (module_name : List String) (base_dir : FPath) :
    resolve_module fs module_name base_dir =
      if fs.isfile (addPyExt (base_dir ++ module_name))
      then some (addPyExt (base_dir ++ module_name))
      else if fs.isfile (base_dir ++ module_name ++ ["__init__.py"])
      then some (base_dir ++ module_name ++ ["__init__.py"])
      else none := rfl

/-- C3: for an absolute import declaration (either an `import name`
alias or a level-0 `from name import ...`), resolution against the
importing file's own directory is tried first and wins whenever it
succeeds; only when it yields nothing is the name resolved against the
project root; and at most one path is returned per declaration. -/
theorem c3_absolute_precedence (fs : FS) (file root : FPath) (name : List String) :
    (∀ p, resolve_module fs name (dirname file) = some p →
      resolve_import fs (.imp [name]) file root = [p] ∧
      resolve_import fs (.impFrom 0 (some name)) file root = [p]) ∧
    (resolve_module fs name (dirname file) = none →
      resolve_import fs (.imp [name]) file root = (resolve_module fs name root).toList ∧
      resolve_import fs (.impFrom 0 (some name)) file root =
        (resolve_module fs name root).toList) ∧
    (resolve_import fs (.imp [name]) file root).length ≤ 1 ∧
    (resolve_import fs (.impFrom 0 (some name)) file root).length ≤ 1 := by
  refine ⟨?_, ?_, ?_, ?_⟩
  · intro p hp
    constructor
    · simp [resolve_import, hp]
    · simp [resolve_import, hp]
  · intro hd
    cases hr : resolve_module fs name root with
    | none => constructor <;> simp [resolve_import, hd, hr]
    | some r => constructor <;> simp [resolve_import, hd, hr]
  · cases hd : resolve_module fs name (dirname file) with
    | some p => simp [resolve_import, hd]
    | none =>
      cases hr : resolve_module fs name root with
      | none => simp [resolve_import, hd, hr]
      | some r => simp [resolve_import, hd, hr]
  · cases hd : resolve_module fs name (dirname file) with
    | some p => simp [resolve_import, hd]
    | none =>
      cases hr : resolve_module fs name root with
      | none => simp [resolve_import, hd, hr]
      | some r => simp [resolve_import, hd, hr]

theorem c3_absolute_precedence_witness :
    resolve_import exPrecFS (.imp [["m"]]) ["r", "sub", "main.py"] ["r"] =
      [["r", "sub", "m.py"]] ∧
    resolve_import exPrecFS (.impFrom 0 (some ["m"])) ["r", "sub", "main.py"] ["r"] =
      [["r", "sub", "m.py"]] :=
  (c3_absolute_precedence exPrecFS ["r", "sub", "main.py"] ["r"] ["m"]).1
    ["r", "sub", "m.py"] (by decide)

/-- C4: a relative import with level `L ≥ 1` climbs exactly `L − 1`
directories above the importing file's own directory (each extra level
is one more `dirname` step), so a level-1 import of `b` from
`d/pkg/a.py` resolves to `d/pkg/b.py` (or `d/pkg/b/__init__.py`), and a
level-2 import of `c` from `d/pkg/a.py` resolves against the parent of
`pkg`, e.g. to `d/c.py`. -/
theorem c4_relative_level_arithmetic (fs : FS) (root d : FPath) (L : Nat)
    (m : Option (List String)) (file : FPath) :
    (resolve_import fs (.impFrom (L + 2) m) file root =
      resolve_import fs (.impFrom (L + 1) m) (dirname file) root) ∧
    (fs.isfile (d ++ ["pkg", "b.py"]) = true →
      resolve_import fs (.impFrom 1 (some ["b"])) (d ++ ["pkg", "a.py"]) root =
        [d ++ ["pkg", "b.py"]]) ∧
    (fs.isfile (d ++ ["pkg", "b.py"]) = false →
      fs.isfile (d ++ ["pkg", "b", "__init__.py"]) = true →
      resolve_import fs (.impFrom 1 (some ["b"])) (d ++ ["pkg", "a.py"]) root =
        [d ++ ["pkg", "b", "__init__.py"]]) ∧
    (fs.isfile (d ++ ["c.py"]) = true →
      resolve_import fs (.impFrom 2 (some ["c"])) (d ++ ["pkg", "a.py"]) root =
        [d ++ ["c.py"]]) := by
  have hdir : dirname (d ++ ["pkg", "a.py"]) = d ++ ["pkg"] := by
    have h2 : d ++ ["pkg", "a.py"] = (d ++ ["pkg"]) ++ ["a.py"] := by simp
    rw [h2, dirname_concat]
  have hcand1 : addPyExt ((d ++ ["pkg"]) ++ ["b"]) = d ++ ["pkg", "b.py"] := by
    rw [addPyExt_concat]
    have hb : ("b" ++ ".py" : String) = "b.py" := rfl
    rw [hb]
    simp
  have hinit1 : ((d ++ ["pkg"]) ++ ["b"]) ++ ["__init__.py"] =
      d ++ ["pkg", "b", "__init__.py"] := by simp
  refine ⟨rfl, ?_, ?_, ?_⟩
  · intro h
    rw [resolve_import_rel_some, ascend_zero, hdir, hcand1, if_pos h]
  · intro h1 h2
    rw [resolve_import_rel_some, ascend_zero, hdir, hcand1, hinit1,
      if_neg (by rw [h1]; exact Bool.false_ne_true), if_pos h2]
  · intro h
    have hcand2 : addPyExt (d ++ ["c"]) = d ++ ["c.py"] := by
      rw [addPyExt_concat]
      have hcstr : ("c" ++ ".py" : String) = "c.py" := rfl
      rw [hcstr]
    rw [resolve_import_rel_some, ascend_one, hdir, dirname_concat, hcand2, if_pos h]

theorem c4_relative_level_arithmetic_witness :
    resolve_import exRelFS (.impFrom 1 (some ["b"])) ["r", "pkg", "a.py"] ["r"] =
      [["r", "pkg", "b.py"]] :=
  (c4_relative_level_arithmetic exRelFS ["r"] ["r"] 0 none
    ["r", "pkg", "a.py"]).2.1 (by decide)

/-- C5 counterexample: for the relative import `from . import …`
(level 1, no trailing module name) written in `/r/pkg/a.py`, the
package entry file `/r/pkg/__init__.py` exists, yet `resolve_import`
returns the single-file candidate `/r/pkg.py` (the candidate base
directory path with the source extension appended), not the package
entry file — the code does test a single-file shape first. -/
theorem c5_no_trailing_name_counterexample :
    exShadowFS.isfile ["r", "pkg", "__init__.py"] = true ∧
    resolve_import exShadowFS (.impFrom 1 none) ["r", "pkg", "a.py"] ["r"] =
      [["r", "pkg.py"]] ∧
    (["r", "pkg.py"] : FPath) ≠ ["r", "pkg", "__init__.py"] := by decide

/-- C5 amended: for a relative import with no trailing module name, the
resolver first tests the single-file shape obtained by appending the
source extension to the candidate base directory path, then the base
directory's package entry file, and returns nothing if neither
exists. -/
theorem c5_no_trailing_name_amended (fs : FS) (file root : FPath) (L : Nat) :
    (fs.isfile (addPyExt (ascend L (dirname file))) = true →
      resolve_import fs (.impFrom (L + 1) none) file root =
        [addPyExt (ascend L (dirname file))]) ∧
    (fs.isfile (addPyExt (ascend L (dirname file))) = false →
      fs.isfile (ascend L (dirname file) ++ ["__init__.py"]) = true →
      resolve_import fs (.impFrom (L + 1) none) file root =
        [ascend L (dirname file) ++ ["__init__.py"]]) ∧
    (fs.isfile (addPyExt (ascend L (dirname file))) = false →
      fs.isfile (ascend L (dirname file) ++ ["__init__.py"]) = false →
      resolve_import fs (.impFrom (L + 1) none) file root = []) := by
  refine ⟨?_, ?_, ?_⟩
  · intro h
    rw [resolve_import_rel_none, if_pos h]
  · intro h1 h2
    rw [resolve_import_rel_none, if_neg (by rw [h1]; exact Bool.false_ne_true),
      if_pos h2]
  · intro h1 h2
    rw [resolve_import_rel_none, if_neg (by rw [h1]; exact Bool.false_ne_true),
      if_neg (by rw [h2]; exact Bool.false_ne_true)]

theorem c5_no_trailing_name_amended_witness :
    resolve_import exShadowFS (.impFrom 1 none) ["r", "pkg", "a.py"] ["r"] =
      [["r", "pkg.py"]] :=
  (c5_no_trailing_name_amended exShadowFS ["r", "pkg", "a.py"] ["r"] 0).1 (by decide)

/-- C6: `resolve_module` tries exactly two candidate shapes in order —
the single-file shape `base/seg1/../segN.py` first, then the package
shape `base/seg1/../segN/__init__.py` — returns the first that exists
as a regular file, `none` when neither exists, and never returns any
other path. -/
theorem c6_resolve_module_shapes (fs : FS) (name : List String) (base : FPath) :
    (fs.isfile (addPyExt (base ++ name)) = true →
      resolve_module fs name base = some (addPyExt (base ++ name))) ∧
    (fs.isfile (addPyExt (base ++ name)) = false →
      fs.isfile (base ++ name ++ ["__init__.py"]) = true →
      resolve_module fs name base = some (base ++ name ++ ["__init__.py"])) ∧
    (fs.isfile (addPyExt (base ++ name)) = false →
      fs.isfile (base ++ name ++ ["__init__.py"]) = false →
      resolve_module fs name base = none) ∧
    (∀ p, resolve_module fs name base = some p →
      fs.isfile p = true ∧
        (p = addPyExt (base ++ name) ∨ p = base ++ name ++ ["__init__.py"])) := by
  refine ⟨?_, ?_, ?_, ?_⟩
  · intro h
    rw [resolve_module_eq, if_pos h]
  · intro h1 h2
    rw [resolve_module_eq, if_neg (by rw [h1]; exact Bool.false_ne_true), if_pos h2]
  · intro h1 h2
    rw [resolve_module_eq, if_neg (by rw [h1]; exact Bool.false_ne_true),
      if_neg (by rw [h2]; exact Bool.false_ne_true)]
  · intro p hp
    rw [resolve_module_eq] at hp
    by_cases h1 : fs.isfile (addPyExt (base ++ name)) = true
    · rw [if_pos h1] at hp
      obtain rfl : addPyExt (base ++ name) = p := Option.some.inj hp
      exact ⟨h1, Or.inl rfl⟩
    · rw [if_neg h1] at hp
      by_cases h2 : fs.isfile (base ++ name ++ ["__init__.py"]) = true
      · rw [if_pos h2] at hp
        obtain rfl : base ++ name ++ ["__init__.py"] = p := Option.some.inj hp
        exact ⟨h2, Or.inr rfl⟩
      · rw [if_neg h2] at hp
        exact Option.noConfusion hp

theorem c6_resolve_module_shapes_witness :
    resolve_module exPkgFS ["m"] ["r"] = some ["r", "m", "__init__.py"] :=
  (c6_resolve_module_shapes exPkgFS ["m"] ["r"]).2.1 (by decide) (by decide)

/-! ### Traversal claims -/

theorem two_mem_length {α : Type} {x y : α} {l : List α} (hx : x ∈ l) (hy : y ∈ l)
    (hxy : x ≠ y) : 2 ≤ l.length := by
  cases l with
  | nil => exact absurd hx (List.not_mem_nil x)
  | cons a l =>
    cases l with
    | nil =>
      have hx1 : x = a := by simpa using hx
      have hy1 : y = a := by simpa using hy
      exact absurd (hx1.trans hy1.symm) hxy
    | cons b l =>
      simp only [List.length_cons]
      omega

/-- C1: on a two-file import cycle (`A` imports `B`, `B` imports `A`)
the traversal terminates — every fuel from 3 upward, in particular the
stock fuel of `collect_files`, yields the same final set — and the
collected set is exactly `{A ↦ cA, B ↦ cB}` in discovery order.  In
general each reachable path is recorded at most once (the key list of
any traversal result stays duplicate-free), and the result is
fuel-independent once the fuel exceeds the number of files not yet
collected: a path is recorded before its imports are recursed into and
an already-present path is never re-entered, so the recursion bottoms
out on any cycle. -/
theorem c1_cycle_termination (fs : FS) (root : FPath) (spec : IgnoreSpec)
    (A B : FPath) (cA cB : String) (nA nB : ImportNode)
    (hAB : A ≠ B)
    (hrA : fs.read A = some cA) (hrB : fs.read B = some cB)
    (hpA : fs.parse cA = some [nA]) (hpB : fs.parse cB = some [nB])
    (hresA : resolve_import fs nA A root = [B])
    (hresB : resolve_import fs nB B root = [A])
    (hiA : should_ignore A root spec = false)
    (hiB : should_ignore B root spec = false)
    (hunderB : isUnderRoot root B = true) :
    collect_files fs A root spec = [(A, cA), (B, cB)] ∧
    (∀ n, collectF fs root spec (n + 3) A [] = [(A, cA), (B, cB)]) ∧
    (∀ (fs2 : FS) (root2 : FPath) (spec2 : IgnoreSpec) (fuel : Nat) (q : FPath)
        (c0 : List (FPath × String)), (c0.map Prod.fst).Nodup →
        ((collectF fs2 root2 spec2 fuel q c0).map Prod.fst).Nodup) ∧
    (∀ (fs2 : FS) (root2 : FPath) (spec2 : IgnoreSpec) (n m : Nat) (q : FPath)
        (c0 : List (FPath × String)), ucount fs2 c0 < n → ucount fs2 c0 < m →
        collectF fs2 root2 spec2 n q c0 = collectF fs2 root2 spec2 m q c0) := by
  have hB0 : (alookup B [(A, cA)]).isSome = false := by
    rw [alookup_cons, if_neg (fun h => hAB h.symm)]
    rfl
  have hA2 : (alookup A [(A, cA), (B, cB)]).isSome = true := by
    rw [alookup_cons, if_pos rfl]
    rfl
  have hkey : ∀ n, collectF fs root spec (n + 3) A [] = [(A, cA), (B, cB)] := by
    intro n
    show collectF fs root spec ((n + 2) + 1) A [] = [(A, cA), (B, cB)]
    rw [collectF_visit fs root spec (n + 2) A [] cA [nA] rfl hiA hrA hpA]
    simp only [List.foldl_cons, List.foldl_nil, List.nil_append]
    rw [hresA]
    simp only [List.foldl_cons, List.foldl_nil]
    rw [if_pos hunderB]
    show collectF fs root spec ((n + 1) + 1) B [(A, cA)] = [(A, cA), (B, cB)]
    rw [collectF_visit fs root spec (n + 1) B [(A, cA)] cB [nB] hB0 hiB hrB hpB]
    simp only [List.foldl_cons, List.foldl_nil, List.singleton_append]
    rw [hresB]
    simp only [List.foldl_cons, List.foldl_nil]
    by_cases hA : isUnderRoot root A = true
    · rw [if_pos hA]
      exact collectF_found fs root spec n A [(A, cA), (B, cB)] hA2
    · rw [if_neg hA]
  refine ⟨?_, hkey, ?_, ?_⟩
  · have hmemA : (A, some cA) ∈ fs.files :=
      mem_of_alookup A (some cA) fs.files (read_some_alookup fs A cA hrA)
    have hmemB : (B, some cB) ∈ fs.files :=
      mem_of_alookup B (some cB) fs.files (read_some_alookup fs B cB hrB)
    have hlen : 2 ≤ fs.files.length :=
      two_mem_length hmemA hmemB (fun h => hAB (congrArg Prod.fst h))
    obtain ⟨k, hk⟩ : ∃ k, fs.files.length + 1 = k + 3 :=
      ⟨fs.files.length - 2, by omega⟩
    show collectF fs root spec (fs.files.length + 1) A [] = [(A, cA), (B, cB)]
    rw [hk]
    exact hkey k
  · exact fun fs2 root2 spec2 fuel q c0 => collectF_nodup fs2 root2 spec2 fuel q c0
  · exact fun fs2 root2 spec2 n m q c0 => collectF_stable fs2 root2 spec2 n m q c0

theorem c1_cycle_termination_witness :
    collect_files exCycleFS ["r", "a.py"] ["r"] none =
      [(["r", "a.py"], "import b"), (["r", "b.py"], "import a")] :=
  (c1_cycle_termination exCycleFS ["r"] none ["r", "a.py"] ["r", "b.py"]
    "import b" "import a" (.imp [["b"]]) (.imp [["a"]])
    (by decide) (by decide) (by decide) (by decide) (by decide) (by decide)
    (by decide) (by decide) (by decide) (by decide)).1

/-- C2 counterexample: with root `/r` and the entry file `/q/e.py`
outside the root, the entry file is still recorded in the collected
set — the traversal containment-checks only resolved import targets,
never the entry file itself — so not every key lies under the root. -/
theorem c2_containment_counterexample :
    (⟨["q", "e.py"], "x"⟩ : FPath × String) ∈
      collect_files exOutFS ["q", "e.py"] ["r"] none ∧
    isUnderRoot ["r"] ["q", "e.py"] = false := by decide

/-- C2 amended: provided the entry file itself lies under the root (as
the surrounding program guarantees), every path key of the collected
set lies under the root per path-containment semantics and was not
matched by the ignore policy when it was added. -/
theorem c2_containment_amended (fs : FS) (root : FPath) (spec : IgnoreSpec)
    (entry : FPath) (hentry : isUnderRoot root entry = true) :
    ∀ pr ∈ collect_files fs entry root spec,
      isUnderRoot root pr.1 = true ∧ should_ignore pr.1 root spec = false := by
  intro pr hpr
  rcases collectF_mem fs root spec (fs.files.length + 1) entry [] pr hpr with h | h
  · exact absurd h (List.not_mem_nil pr)
  · rcases h.2.2 with h1 | h1
    · exact ⟨h1 ▸ hentry, h.1⟩
    · exact ⟨h1, h.1⟩

theorem c2_containment_amended_witness :
    isUnderRoot ["r"] ["r", "e.py"] = true ∧
    should_ignore ["r", "e.py"] ["r"] none = false :=
  c2_containment_amended exInFS ["r"] none ["r", "e.py"] (by decide)
    ⟨["r", "e.py"], "x"⟩ (by decide)

/-- C7: when a visited file reads successfully but fails to parse, the
traversal still records that file's path with its raw content (the sole
new entry, appended), follows no import edges out of it, and returns
normally, so the enclosing traversal continues unaffected. -/
theorem c7_parse_failure_records (fs : FS) (root : FPath) (spec : IgnoreSpec)
    (fuel : Nat) (p : FPath) (c : List (FPath × String)) (content : String)
    (h1 : (alookup p c).isSome = false) (h2 : should_ignore p root spec = false)
    (h3 : fs.read p = some content) (h4 : fs.parse content = none) :
    collectF fs root spec (fuel + 1) p c = c ++ [(p, content)] ∧
    alookup p (collectF fs root spec (fuel + 1) p c) = some content := by
  have he := collectF_parsefail fs root spec fuel p c content h1 h2 h3 h4
  refine ⟨he, ?_⟩
  rw [he, alookup_append_right p c _ (alookup_eq_none_of_isSome_false h1),
    alookup_cons, if_pos rfl]

theorem c7_parse_failure_records_witness :
    collectF exBadParseFS ["r"] none 1 ["r", "bad.py"] [] =
      [(["r", "bad.py"], "def (")] :=
  (c7_parse_failure_records exBadParseFS ["r"] none 0 ["r", "bad.py"] [] "def ("
    (by decide) (by decide) (by decide) (by decide)).1

/-- C8: when reading a visited file fails with an I/O error, the
traversal does not record that file, yields nothing further from that
branch, and returns normally, so the rest of the traversal continues
unaffected. -/
theorem c8_read_failure_skips (fs : FS) (root : FPath) (spec : IgnoreSpec)
    (fuel : Nat) (p : FPath) (c : List (FPath × String))
    (h1 : (alookup p c).isSome = false) (h2 : should_ignore p root spec = false)
    (h3 : fs.read p = none) :
    collectF fs root spec (fuel + 1) p c = c ∧
    alookup p (collectF fs root spec (fuel + 1) p c) = none := by
  have he := collectF_readfail fs root spec fuel p c h1 h2 h3
  exact ⟨he, by rw [he]; exact alookup_eq_none_of_isSome_false h1⟩

theorem c8_read_failure_skips_witness :
    collectF exReadErrFS ["r"] none 1 ["r", "locked.py"] [] = [] :=
  (c8_read_failure_skips exReadErrFS ["r"] none 0 ["r", "locked.py"] []
    (by decide) (by decide) (by decide)).1

/-- C9: the traversal is a pure function of the filesystem snapshot and
the parser: two runs over equal snapshots from the same entry file
produce identical collected sets — same keys, same insertion order,
same contents. -/
theorem c9_determinism (fs1 fs2 : FS) (entry root : FPath) (spec : IgnoreSpec)
    (hfiles : fs1.files = fs2.files) (hparse : fs1.parse = fs2.parse) :
    collect_files fs1 entry root spec = collect_files fs2 entry root spec := by
  obtain ⟨f1, p1⟩ := fs1
  obtain ⟨f2, p2⟩ := fs2
  cases hfiles
  cases hparse
  rfl

theorem c9_determinism_witness :
    collect_files exFSa ["r", "a.py"] ["r"] none =
      collect_files exFSb ["r", "a.py"] ["r"] none :=
  c9_determinism exFSa exFSb ["r", "a.py"] ["r"] none (by decide) rfl

/-- C10: a call with a pre-populated accumulator preserves every
existing entry unchanged and in place (the result extends the
accumulator by appended entries only, hence is a superset), and when
the visited path is already a key the call returns the accumulator
untouched — before any ignore check, file read, or write. -/
theorem c10_prepopulated_frame (fs : FS) (root : FPath) (spec : IgnoreSpec)
    (fuel : Nat) (p : FPath) (c : List (FPath × String)) :
    (∃ t, collectF fs root spec fuel p c = c ++ t) ∧
    (∀ pr ∈ c, pr ∈ collectF fs root spec fuel p c) ∧
    ((alookup p c).isSome = true → collectF fs root spec fuel p c = c) := by
  refine ⟨collectF_extendsAcc fs root spec fuel p c, ?_, ?_⟩
  · intro pr hpr
    obtain ⟨t, ht⟩ := collectF_extendsAcc fs root spec fuel p c
    rw [ht]
    exact List.mem_append_left t hpr
  · intro h
    cases fuel with
    | zero => exact collectF_zero fs root spec p c
    | succ fuel => exact collectF_found fs root spec fuel p c h

theorem c10_prepopulated_frame_witness :
    collectF exCycleFS ["r"] none 5 ["r", "a.py"] [(["r", "a.py"], "old")] =
      [(["r", "a.py"], "old")] :=
  (c10_prepopulated_frame exCycleFS ["r"] none 5 ["r", "a.py"]
    [(["r", "a.py"], "old")]).2.2 (by decide)
